import Mathlib

/-!
# Verification of the LatinIME native decoding core

Shallow embedding of the dynamic Patricia trie dictionary, the bigram
scoring cache and the prediction output path of the LatinIME native
suggestion engine, together with proofs and refutations of the
specification's claims about them.

Every definition is translated from the C++ sources under
`native/jni/src` (and `native/src/defines.h`).  A few leaf helpers
(`ProbabilityUtils`, `CharUtils`, the bloom filter, the node reading
helper and some numeric constants) live in files that are not part of
this snapshot; those are modelled from the specification and are marked
`Modelled from the spec:` in their doc comments.
-/

namespace LatinIME

/-- `MAX_WORD_LENGTH_INTERNAL` from `defines.h` (the specification's
`MAX_WORD_LENGTH` = 48). -/
def MAX_WORD_LENGTH : Nat := 48

/-- Modelled from the spec: the sentinel for an invalid probability
(`NOT_A_PROBABILITY`); its numeric value lives in a header that is not
part of this snapshot, the spec only requires it to lie outside the
valid range 0..255. -/
def NOT_A_PROBABILITY : Int := -1

/-- Modelled from the spec: `MAX_PROBABILITY`, the top of the 0..255
probability scale. -/
def MAX_PROBABILITY : Int := 255

/-- Modelled from the spec: the sentinel for an invalid dictionary
position (`NOT_A_DICT_POS`). -/
def NOT_A_DICT_POS : Int := -1

/-- Modelled from the spec: the sentinel returned by terminal lookup on
failure (`NOT_A_VALID_WORD_POS`; `defines.h` has `NOT_VALID_WORD -99`). -/
def NOT_A_VALID_WORD_POS : Int := -99

/-- Modelled from the spec: `MAX_RESULTS`, the size of the bounded
result structure.  Its numeric value lives in a header that is not part
of this snapshot; the claims do not depend on the concrete value. -/
def MAX_RESULTS : Nat := 18

namespace ProbabilityUtils

/-- Modelled from the spec: `backoff(uni)` = `uni - 8` clamped to ≥ 0
when `uni ≠ NOT_A_PROBABILITY`, else `NOT_A_PROBABILITY`
(`ProbabilityUtils::backoff`, not under src/). -/
def backoff (unigramProbability : Int) : Int :=
  if unigramProbability = NOT_A_PROBABILITY then NOT_A_PROBABILITY
  else max (unigramProbability - 8) 0

/-- Modelled from the spec: bigram compositing
`round(uni + (MAX_PROBABILITY − uni) · (bi + 1) / 16)`
(`ProbabilityUtils::computeProbabilityForBigram`, not under src/). -/
def computeProbabilityForBigram (unigramProbability bigramProbability : Int) : Int :=
  round ((unigramProbability : ℚ) +
    ((MAX_PROBABILITY : ℚ) - (unigramProbability : ℚ)) *
      ((bigramProbability : ℚ) + 1) / 16)

end ProbabilityUtils

/-- `DynamicPatriciaTriePolicy::getProbability`
(`dynamic_patricia_trie_policy.cpp`, lines 138-149): dispatch between
the sentinel, the backoff and the bigram compositing formula. -/
def DynamicPatriciaTriePolicy.getProbability
    (unigramProbability bigramProbability : Int) : Int :=
  if unigramProbability = NOT_A_PROBABILITY then NOT_A_PROBABILITY
  else if bigramProbability = NOT_A_PROBABILITY then
    ProbabilityUtils.backoff unigramProbability
  else
    ProbabilityUtils.computeProbabilityForBigram unigramProbability bigramProbability

namespace DicNodeUtils

/-- The scanning loop of `DicNodeUtils::appendTwoWords`
(`dic_node_utils.cpp`, lines 113-119 and 125-131): the number of
entries before the first 0 code point. -/
def actualLength : List Int → Nat
  | [] => 0
  | c :: rest => if c = 0 then 0 else actualLength rest + 1

/-- `DicNodeUtils::appendTwoWords` (`dic_node_utils.cpp`, lines
111-135), with the destination buffer represented as the list of code
points written.  `src0`/`src1` are the first `length0`/`length1`
entries of the C buffers; a null `src1` or `length1 == 0` is the empty
list. -/
def appendTwoWords (src0 src1 : List Int) : List Int :=
  let actualLength0 := min (actualLength src0) MAX_WORD_LENGTH
  let dest0 := src0.take actualLength0
  if src1.isEmpty then dest0
  else
    let actualLength1 := min (actualLength src1) (MAX_WORD_LENGTH - actualLength0)
    dest0 ++ src1.take actualLength1

end DicNodeUtils

/-! ## MultiBigramMap (`multi_bigram_map.h`)

The dictionary behind the map is abstracted as a function
`bigramsOf : Int → List (Int × Int)` giving, for a previous-word
terminal position, the `(targetPos, probability)` pairs yielded in
order by `BinaryDictionaryBigramsIterator` over the node's bigram list
(the iterator itself is not under src/). -/

namespace MultiBigramMap

/-- Modelled from the spec: the bloom filter is a fixed 256-bit bit
array summarizing membership with no false negatives
(`bloom_filter.h` is not under src/); a position hashes to one of the
256 bits. -/
def bloomHash (position : Int) : Int := position % 256

/-- The per-previous-word cache entry of `MultiBigramMap`: the
`targetPos → probability` hash map and the bloom filter (represented as
the list of set bits). -/
structure BigramMap where
  map : List (Int × Int)
  filter : List Int

/-- `mBigramMap[pos] = prob`: hash-map assignment, overwriting the
entry for an existing key and appending otherwise. -/
def insertAssoc (k v : Int) : List (Int × Int) → List (Int × Int)
  | [] => [(k, v)]
  | (k', v') :: rest =>
    if k' = k then (k, v) :: rest else (k', v') :: insertAssoc k v rest

/-- `mBigramMap.find(pos)`: hash-map lookup. -/
def findAssoc (k : Int) : List (Int × Int) → Option Int
  | [] => none
  | (k', v) :: rest => if k' = k then some v else findAssoc k rest

/-- `MultiBigramMap::BigramMap::init` (`multi_bigram_map.h`, lines
69-78): read the whole bigram list into the map and mark every target
in the bloom filter. -/
def BigramMap.init (bigramsOf : Int → List (Int × Int)) (nodePos : Int) : BigramMap :=
  (bigramsOf nodePos).foldl
    (fun bm e =>
      { map := insertAssoc e.1 e.2 bm.map, filter := bloomHash e.1 :: bm.filter })
    { map := [], filter := [] }

/-- `MultiBigramMap::BigramMap::getBigramProbability`
(`multi_bigram_map.h`, lines 80-92): probe the bloom filter, then the
map; compose on a hit, back off otherwise. -/
def BigramMap.getBigramProbability (bm : BigramMap)
    (nextWordPosition unigramProbability : Int) : Int :=
  if bloomHash nextWordPosition ∈ bm.filter then
    match findAssoc nextWordPosition bm.map with
    | some bigramProbability =>
        ProbabilityUtils.computeProbabilityForBigram unigramProbability bigramProbability
    | none => ProbabilityUtils.backoff unigramProbability
  else ProbabilityUtils.backoff unigramProbability

/-- The linear scan of
`MultiBigramMap::readBigramProbabilityFromBinaryDictionary`
(`multi_bigram_map.h`, lines 113-120): first entry whose target matches
wins. -/
def scanBigramList (nextWordPosition unigramProbability : Int) :
    List (Int × Int) → Int
  | [] => ProbabilityUtils.backoff unigramProbability
  | e :: rest =>
    if e.1 = nextWordPosition then
      ProbabilityUtils.computeProbabilityForBigram unigramProbability e.2
    else scanBigramList nextWordPosition unigramProbability rest

/-- `MultiBigramMap::readBigramProbabilityFromBinaryDictionary`
(`multi_bigram_map.h`, lines 107-121). -/
def readBigramProbabilityFromBinaryDictionary (bigramsOf : Int → List (Int × Int))
    (nodePos nextWordPosition unigramProbability : Int) : Int :=
  scanBigramList nextWordPosition unigramProbability (bigramsOf nodePos)

/-- Modelled from the spec: `MAX_CACHED_PREV_WORDS_IN_BIGRAM_MAP`; its
numeric value lives in a file that is not part of this snapshot. -/
def MAX_CACHED_PREV_WORDS_IN_BIGRAM_MAP : Nat := 25

/-- The `mBigramMaps` member: previous-word position → cached map. -/
structure State where
  bigramMaps : List (Int × BigramMap)

/-- `mBigramMaps.find(wordPosition)`. -/
def findCached (k : Int) : List (Int × BigramMap) → Option BigramMap
  | [] => none
  | (k', bm) :: rest => if k' = k then some bm else findCached k rest

/-- `MultiBigramMap::getBigramProbability` (`multi_bigram_map.h`, lines
41-55): use the cached map when present, cache and use a fresh map when
there is space, and fall through to the direct linear scan otherwise.
Only the returned value is modelled; the caching side effect does not
affect it. -/
def getBigramProbability (bigramsOf : Int → List (Int × Int)) (st : State)
    (wordPosition nextWordPosition unigramProbability : Int) : Int :=
  match findCached wordPosition st.bigramMaps with
  | some bm => bm.getBigramProbability nextWordPosition unigramProbability
  | none =>
    if st.bigramMaps.length < MAX_CACHED_PREV_WORDS_IN_BIGRAM_MAP then
      (BigramMap.init bigramsOf wordPosition).getBigramProbability
        nextWordPosition unigramProbability
    else
      readBigramProbabilityFromBinaryDictionary bigramsOf
        wordPosition nextWordPosition unigramProbability

end MultiBigramMap

/-! ## DicNode scoring (`dic_node_utils.cpp`) -/

/-- The DicNode fields read by `DicNodeUtils::getBigramNodeImprobability`
and `getBigramNodeProbability`. -/
structure DicNode where
  probability : Int
  ptNodePos : Int
  prevWordTerminalPtNodePos : Int
  hasMultipleWords : Bool
  isValidMultipleWordSuggestion : Bool

/-- Modelled from the spec: `MAX_VALUE_FOR_WEIGHTING`, the cost used to
reject invalid multi-word candidates; its numeric value lives in a
header that is not part of this snapshot.  C++ `float` arithmetic is
modelled over ℚ (the single division involved carries no
rounding-dependent branching). -/
def MAX_VALUE_FOR_WEIGHTING : ℚ := 10000000

/-- `DicNodeUtils::getBigramNodeProbability` (`dic_node_utils.cpp`,
lines 86-104), with the dictionary-structure policy fixed to
`DynamicPatriciaTriePolicy` and the dictionary abstracted as in
`MultiBigramMap`. -/
def DicNodeUtils.getBigramNodeProbability (bigramsOf : Int → List (Int × Int))
    (dicNode : DicNode) (multiBigramMap : Option MultiBigramMap.State) : Int :=
  let unigramProbability := dicNode.probability
  if dicNode.ptNodePos = NOT_A_DICT_POS ∨
      dicNode.prevWordTerminalPtNodePos = NOT_A_DICT_POS then
    DynamicPatriciaTriePolicy.getProbability unigramProbability NOT_A_PROBABILITY
  else
    match multiBigramMap with
    | some st =>
        MultiBigramMap.getBigramProbability bigramsOf st
          dicNode.prevWordTerminalPtNodePos dicNode.ptNodePos unigramProbability
    | none =>
        DynamicPatriciaTriePolicy.getProbability unigramProbability NOT_A_PROBABILITY

/-- `DicNodeUtils::getBigramNodeImprobability` (`dic_node_utils.cpp`,
lines 72-84). -/
def DicNodeUtils.getBigramNodeImprobability (bigramsOf : Int → List (Int × Int))
    (dicNode : DicNode) (multiBigramMap : Option MultiBigramMap.State) : ℚ :=
  if dicNode.hasMultipleWords && !dicNode.isValidMultipleWordSuggestion then
    MAX_VALUE_FOR_WEIGHTING
  else
    ((MAX_PROBABILITY : ℚ) -
        (DicNodeUtils.getBigramNodeProbability bigramsOf dicNode multiBigramMap : ℚ)) /
      (MAX_PROBABILITY : ℚ)

/-! ## Bigram predictions (`bigram_dictionary.cpp`)

The result arrays `bigramProbability[MAX_RESULTS]` and
`bigramCodePoints[MAX_RESULTS * MAX_WORD_LENGTH]` are represented as a
list of `MAX_RESULTS` slots, each a `(probability, stored word)` pair;
the stored word is the sequence of code points written into the slot
(the null terminator is written at index `word.length` of the slot).
The arrays arrive zero-initialized from the host, so the initial state
is `MAX_RESULTS` slots holding probability 0 and an empty word. -/

namespace BigramDictionary

/-- Modelled from the spec: `CharUtils::getCodePointCount(maxCount, p)`
(`char_utils` is not under src/): the number of code points before the
terminating 0, capped at `maxCount`. -/
def getCodePointCount (maxCount : Nat) (w : List Int) : Nat :=
  min (DicNodeUtils.actualLength w) maxCount

/-- The break condition of the insertion-point loop of
`BigramDictionary::addWordBigram` (`bigram_dictionary.cpp`, lines
56-58): the candidate ranks strictly above the slot. -/
def betterB (probability : Int) (length : Nat) (e : Int × List Int) : Bool :=
  decide (e.1 < probability) ||
    (decide (probability = e.1) &&
      decide (length < getCodePointCount MAX_WORD_LENGTH e.2))

/-- `BigramDictionary::addWordBigram` (`bigram_dictionary.cpp`, lines
42-85) acting on the fixed-size slot list: find the insertion point,
shift the tail down dropping the last slot, store the candidate; when
no slot ranks below the candidate (`insertAt >= MAX_RESULTS`) nothing
is written. -/
def addWordBigram (probability : Int) (word : List Int) :
    List (Int × List Int) → List (Int × List Int)
  | [] => []
  | e :: rest =>
    if betterB probability word.length e then
      (probability, word) :: (e :: rest).dropLast
    else e :: addWordBigram probability word rest

/-- The zero-initialized result arrays. -/
def initialResults : List (Int × List Int) :=
  List.replicate MAX_RESULTS (0, [])

/-- The ranking order maintained by the result arrays: probability
descending; on equal probability the word with fewer code points comes
first. -/
def entryGE (a b : Int × List Int) : Prop :=
  b.1 < a.1 ∨ (a.1 = b.1 ∧
    getCodePointCount MAX_WORD_LENGTH a.2 ≤ getCodePointCount MAX_WORD_LENGTH b.2)

instance (a b : Int × List Int) : Decidable (entryGE a b) :=
  inferInstanceAs (Decidable (b.1 < a.1 ∨ (a.1 = b.1 ∧
    getCodePointCount MAX_WORD_LENGTH a.2 ≤ getCodePointCount MAX_WORD_LENGTH b.2)))

/-- The dictionary behind `BigramDictionary::getPredictions`: the
bigram list of the previous word as `(targetPos, bigramProbability)`
pairs, and the terminal-position → (word, unigram probability) reading
(`getCodePointsAndProbabilityAndReturnCodePointCount`). -/
structure PredictionsDict where
  bigrams : List (Int × Int)
  wordOf : Int → List Int × Int

/-- `getCodePointsAndProbabilityAndReturnCodePointCount` abstracted
(its parent-walking loop needs the reading helper, not under src/): it
never returns more than `maxCodePointCount` code points — on overflow
it returns count 0 with `NOT_A_PROBABILITY`. -/
def fetchWordAndProbability (d : PredictionsDict) (pos : Int) : List Int × Int :=
  let r := d.wordOf pos
  if r.1.length ≤ MAX_WORD_LENGTH then r else ([], NOT_A_PROBABILITY)

/-- The loop state of `BigramDictionary::getPredictions`:
`bigramCount`, the result slots, and the trace of words actually
written into slots (each such write also writes the 0 terminator at
slot index `word.length`). -/
structure PredState where
  bigramCount : Nat
  results : List (Int × List Int)
  writtenWords : List (List Int)

/-- One iteration of the bigrams loop of
`BigramDictionary::getPredictions` (`bigram_dictionary.cpp`, lines
123-144).  `accept` is the `inputSize < 1 || checkFirstCharacter(...)`
condition (the first-letter filter over the proximity alternatives of
the typed input). -/
def predStep (d : PredictionsDict) (accept : List Int → Bool)
    (st : PredState) (e : Int × Int) : PredState :=
  let r := fetchWordAndProbability d e.1
  if accept r.1 then
    let probability := ProbabilityUtils.computeProbabilityForBigram r.2 e.2
    { bigramCount := st.bigramCount + 1
      results := addWordBigram probability r.1 st.results
      writtenWords :=
        if st.results.any (betterB probability r.1.length) then
          st.writtenWords ++ [r.1]
        else st.writtenWords }
  else st

/-- `BigramDictionary::getPredictions` (`bigram_dictionary.cpp`, lines
103-146): iterate the previous word's bigram list and return
`min(bigramCount, MAX_RESULTS)` together with the final array state. -/
def getPredictions (d : PredictionsDict) (accept : List Int → Bool) :
    Nat × PredState :=
  let st := d.bigrams.foldl (predStep d accept)
    ⟨0, initialResults, []⟩
  (min st.bigramCount MAX_RESULTS, st)

end BigramDictionary

/-! ## Child enumeration (`dynamic_patricia_trie_policy.cpp`) -/

/-- The node-reader view of a PtNode: the fields that
`createAndGetAllChildNodes` fetches through
`DynamicPatriciaTrieNodeReader`. -/
structure PtNodeInfo where
  headPos : Int
  isTerminal : Bool
  isDeleted : Bool
  isBlacklisted : Bool
  isNotAWord : Bool
  hasChildren : Bool
  probability : Int
  childrenPos : Int
  codePoints : List Int

/-- A stored child PtNode as the reading helper visits it.  Modelled
from the spec: the node reader processes a PtNode marked `isMoved` by
following its stored moved position once and fetching the replacement's
info instead (`dynamic_patricia_trie_node_reader` is not under src/). -/
structure RawPtNode where
  isMoved : Bool
  self : PtNodeInfo
  movedTarget : PtNodeInfo

/-- The node info the reader reports for a visited child. -/
def RawPtNode.resolved (n : RawPtNode) : PtNodeInfo :=
  if n.isMoved then n.movedTarget else n.self

/-- What `DicNodeVector::pushLeavingChild` records for one child
(`dynamic_patricia_trie_policy.cpp`, lines 41-45). -/
structure ChildDicNode where
  ptNodePos : Int
  childrenPos : Int
  probability : Int
  isTerminal : Bool
  hasChildren : Bool
  isBlacklistedOrNotAWord : Bool
  codePoints : List Int

/-- `DynamicPatriciaTriePolicy::createAndGetAllChildNodes`
(`dynamic_patricia_trie_policy.cpp`, lines 31-48).  The child
`PtNodeArray` chain (sibling arrays linked by forward links, which the
reading helper follows) is given as the list of arrays; the loop visits
every node of every array in order and pushes each one. -/
def createAndGetAllChildNodes (dicNodeHasChildren : Bool)
    (childArrays : List (List RawPtNode)) : List ChildDicNode :=
  if !dicNodeHasChildren then []
  else
    childArrays.flatten.map fun n =>
      let info := n.resolved
      { ptNodePos := info.headPos
        childrenPos := info.childrenPos
        probability := info.probability
        isTerminal := info.isTerminal && !info.isDeleted
        hasChildren := info.hasChildren
        isBlacklistedOrNotAWord := info.isBlacklisted || info.isNotAWord
        codePoints := info.codePoints }

/-! ## Marking nodes as moved (`dynamic_patricia_trie_writing_helper.cpp`)

`markNodeAsMovedAndSetPosition` patches three in-place fields of the
original node.  The field-level effect and the positions each call site
passes are modelled here; byte sizes follow the spec's PtNode layout
(flags 1 byte, parent offset 3, children position 3, at least one byte
per code point — the writing utils are not under src/). -/

/-- The in-place fields of a PtNode rewritten by
`markNodeAsMovedAndSetPosition`. -/
structure MovedMark where
  isMoved : Bool
  parentOffsetField : Int
  childrenPosField : Int

/-- `DynamicPatriciaTrieWritingHelper::markNodeAsMovedAndSetPosition`
(`dynamic_patricia_trie_writing_helper.cpp`, lines 134-186): set the
moved flag; store the moved position in the parent-offset field (as an
offset from the node's head, lines 155-159) and the bigram-linked node
position in the children-position field (lines 161-165). -/
def markNodeAsMovedAndSetPosition (headPos movedPos bigramLinkedNodePos : Int) :
    MovedMark :=
  { isMoved := true
    parentOffsetField := movedPos - headPos
    childrenPosField := bigramLinkedNodePos }

/-- Modelled from the spec's file layout (§6): the byte size of a
serialized PtNode with `codePointCount` code points —
flags(1) | parentOffset(3) | codePoints (3 bytes each) |
probability(1) when terminal | childrenPos(3).  Only its positivity
matters for the claims. -/
def ptNodeWrittenSize (codePointCount : Nat) (isTerminal : Bool) : Nat :=
  1 + 3 + 3 * codePointCount + (if isTerminal then 1 else 0) + 3

/-- Modelled from the spec's file layout (§6): the PtNodeArray size
prefix is 1 byte for small counts, 2 otherwise. -/
def ptNodeArraySizeFieldSize (count : Nat) : Nat := if count < 128 then 1 else 2

/-- The `(movedPos, bigramLinkedNodePos)` pair that
`addBigramWords` passes to `markNodeAsMovedAndSetPosition`
(`dynamic_patricia_trie_writing_helper.cpp`, lines 89-90): both are the
tail position where the copied node is about to be written. -/
def addBigramWordsMarkArgs (tailPos : Int) : Int × Int := (tailPos, tailPos)

/-- The pair that `setPtNodeProbability` passes for a non-terminal node
(`dynamic_patricia_trie_writing_helper.cpp`, lines 298-299). -/
def setPtNodeProbabilityMarkArgs (tailPos : Int) : Int × Int := (tailPos, tailPos)

/-- The pair that `reallocatePtNodeAndAddNewPtNodes` passes
(`dynamic_patricia_trie_writing_helper.cpp`, lines 355-394): the moved
position is the first (prefix) part written at the tail; the
bigram-linked position is the second part, which sits after the first
part and the children array's size prefix. -/
def reallocateMarkArgs (tailPos : Int)
    (overlappingCodePointCount newNodeCodePointCount : Nat) : Int × Int :=
  let addsExtraChild := newNodeCodePointCount > overlappingCodePointCount
  let firstPartOfReallocatedPtNodePos := tailPos
  let actualChildrenPos := firstPartOfReallocatedPtNodePos +
    (ptNodeWrittenSize overlappingCodePointCount (!addsExtraChild) : Int)
  let newPtNodeCount : Nat := if addsExtraChild then 2 else 1
  let secondPartOfReallocatedPtNodePos := actualChildrenPos +
    (ptNodeArraySizeFieldSize newPtNodeCount : Int)
  (firstPartOfReallocatedPtNodePos, secondPartOfReallocatedPtNodePos)

/-! ## Mutation failure and buffer state
(`dynamic_patricia_trie_writing_helper.cpp`)

The dictionary buffer pair (`BufferWithExtendableBuffer`, not under
src/) is modelled from the spec: a written region of `tail` bytes that
may grow up to `cap`; a field write succeeds when it stays within
`cap` (in-place patches always lie below `tail`); `writes` records the
performed field writes, most recent first.  Reading a field position
yields the most recent write there, or `none` when the original byte
content is untouched. -/

structure Buffer where
  cap : Nat
  tail : Nat
  writes : List (Nat × Int)

def Buffer.write (buf : Buffer) (pos size : Nat) (v : Int) : Bool × Buffer :=
  if pos + size ≤ buf.cap then
    (true, { cap := buf.cap, tail := max buf.tail (pos + size),
             writes := (pos, v) :: buf.writes })
  else (false, buf)

def Buffer.read (buf : Buffer) (pos : Nat) : Option Int :=
  (buf.writes.find? (fun e => decide (e.1 = pos))).map Prod.snd

/-- Modelled from the spec:
`DynamicPatriciaTrieReadingUtils::updateAndGetFlags(flags, true, false)`
(not under src/) — the flag byte with the moved bit set; the claims
depend only on the patched byte differing in its moved bit, so the
moved/deleted bits are modelled as the two top bits of the byte. -/
def updatedMovedFlags (originalFlags : Int) : Int := originalFlags % 64 + 64

/-- Modelled from the spec: the flag byte produced by
`createAndGetFlags(..., hasBigrams := true, ...)`
(`patricia_trie_reading_utils`, not under src/). -/
def flagsWithBigrams (originalFlags : Int) : Int := originalFlags % 128 + 128

/-- The fields of the word0 PtNode that the writing helper reads
through `DynamicPatriciaTrieNodeReader` (the reader is not under src/;
the field positions are those of the node's serialized layout). -/
structure WriterNodeInfo where
  headPos : Nat
  flags : Int
  parentPos : Int
  codePointCount : Nat
  probability : Int
  childrenPosFieldPos : Nat
  hasChildren : Bool
  childrenPos : Int
  childParentOffsetFieldPositions : List Nat
  bigramsPos : Int
  shortcutPos : Int
  shortcutListSize : Nat
  bigramListSize : Nat

/-- `markNodeAsMovedAndSetPosition` as a buffer transformation
(`dynamic_patricia_trie_writing_helper.cpp`, lines 134-186): patch the
flags byte, the parent-offset field (moved position) and the
children-position field (bigram-linked position) in place; when the
node has children, patch each child's parent-offset field. -/
def markNodeAsMovedAndSetPositionW (buf : Buffer) (node : WriterNodeInfo)
    (movedPos bigramLinkedNodePos : Int) : Bool × Buffer :=
  let r1 := buf.write node.headPos 1 (updatedMovedFlags node.flags)
  if !r1.1 then (false, r1.2) else
  let r2 := r1.2.write (node.headPos + 1) 3 (movedPos - (node.headPos : Int))
  if !r2.1 then (false, r2.2) else
  let r3 := r2.2.write node.childrenPosFieldPos 3 bigramLinkedNodePos
  if !r3.1 then (false, r3.2) else
  if node.hasChildren then
    node.childParentOffsetFieldPositions.foldl
      (fun st p =>
        if !st.1 then st
        else
          let r := st.2.write p 3 (movedPos - (p : Int))
          if !r.1 then (false, r.2) else (true, r.2))
      (true, r3.2)
  else (true, r3.2)

/-- `writePtNodeWithFullInfoToBuffer`
(`dynamic_patricia_trie_writing_helper.cpp`, lines 189-253) appending a
copy of `node` at `writingPos`: dummy flags, parent offset, code
points, probability when terminal, children position, the copied
shortcut and bigram lists (modelled as single writes of their list
sizes; the list policies are not under src/), then the real flags at
the node's head. -/
def writePtNodeCopyW (buf : Buffer) (node : WriterNodeInfo)
    (parentPos : Int) (writingPos : Nat) : Bool × Buffer × Nat :=
  let nodePos := writingPos
  let r1 := buf.write nodePos 1 0
  if !r1.1 then (false, r1.2, nodePos) else
  let p2 := nodePos + 1
  let r2 := r1.2.write p2 3 (if parentPos ≠ NOT_A_DICT_POS then
    parentPos - (nodePos : Int) else NOT_A_DICT_POS)
  if !r2.1 then (false, r2.2, p2) else
  let p3 := p2 + 3
  let r3 := r2.2.write p3 (3 * node.codePointCount) 0
  if !r3.1 then (false, r3.2, p3) else
  let p4 := p3 + 3 * node.codePointCount
  let r4 : Bool × Buffer × Nat :=
    if node.probability ≠ NOT_A_PROBABILITY then
      let r := r3.2.write p4 1 node.probability
      (r.1, r.2, p4 + 1)
    else (true, r3.2, p4)
  if !r4.1 then (false, r4.2.1, r4.2.2) else
  let r5 := r4.2.1.write r4.2.2 3 node.childrenPos
  if !r5.1 then (false, r5.2, r4.2.2) else
  let p6 := r4.2.2 + 3
  let r6 : Bool × Buffer × Nat :=
    if node.shortcutPos ≠ NOT_A_DICT_POS then
      let r := r5.2.write p6 node.shortcutListSize 0
      (r.1, r.2, p6 + node.shortcutListSize)
    else (true, r5.2, p6)
  if !r6.1 then (false, r6.2.1, r6.2.2) else
  let r7 : Bool × Buffer × Nat :=
    if node.bigramsPos ≠ NOT_A_DICT_POS then
      let r := r6.2.1.write r6.2.2 node.bigramListSize 0
      (r.1, r.2, r6.2.2 + node.bigramListSize)
    else (true, r6.2.1, r6.2.2)
  if !r7.1 then (false, r7.2.1, r7.2.2) else
  let r8 := r7.2.1.write nodePos 1 node.flags
  (r8.1, r8.2, r7.2.2)

/-- Modelled from the spec: one serialized bigram entry (flags byte and
a 3-byte target address, §3/§6); the bigram list policy is not under
src/. -/
def bigramEntrySize : Nat := 4

/-- `DynamicPatriciaTrieWritingHelper::addBigramWords`
(`dynamic_patricia_trie_writing_helper.cpp`, lines 82-122) as a buffer
transformation: mark the word0 node moved (pointing at the tail), copy
it to the tail, then either append to the existing bigram list or
write a fresh one-entry list and patch the new node's flags. -/
def addBigramWordsW (buf : Buffer) (node : WriterNodeInfo)
    (word1Pos : Int) : Bool × Buffer :=
  let newNodePos := buf.tail
  let r1 := markNodeAsMovedAndSetPositionW buf node (newNodePos : Int) (newNodePos : Int)
  if !r1.1 then (false, r1.2) else
  let r2 := writePtNodeCopyW r1.2 node node.parentPos newNodePos
  if !r2.1 then (false, r2.2.1) else
  if node.bigramsPos ≠ NOT_A_DICT_POS then
    let r3 := r2.2.1.write r2.2.1.tail bigramEntrySize word1Pos
    (r3.1, r3.2)
  else
    let r3 := r2.2.1.write r2.2.2 bigramEntrySize word1Pos
    if !r3.1 then (false, r3.2) else
    let r4 := r3.2.write newNodePos 1 (flagsWithBigrams node.flags)
    (r4.1, r4.2)

/-- `DynamicPatriciaTrieWritingHelper::removeBigramWords`
(`dynamic_patricia_trie_writing_helper.cpp`, lines 125-132): fail
without touching the buffer when the node has no bigram list, otherwise
hand off to the bigram list policy (not under src/, abstracted as
`removeBigram`). -/
def removeBigramWordsW (removeBigram : Buffer → Int → Bool × Buffer)
    (buf : Buffer) (node : WriterNodeInfo) (word1Pos : Int) : Bool × Buffer :=
  if node.bigramsPos = NOT_A_DICT_POS then (false, buf)
  else removeBigram buf word1Pos

/-! ## The dynamic Patricia trie as seen through the reading helper
(`dynamic_patricia_trie_policy.cpp`,
`dynamic_patricia_trie_writing_helper.cpp`)

The reading helper (not under src/) presents the trie to both
`getTerminalNodePositionOfWord` and the writing helper as sibling
arrays of nodes with merged code-point labels: moved nodes are followed
transparently through their redirect and forward-link chains of arrays
are walked in order (modelled from the spec).  The reader-visible
structure is therefore a tree: each PtNode carries its merged label, an
optional terminal probability, and its children array.  Mutations are
modelled by their reader-visible effect — the moved/deleted
indirections are the byte-level realization of replacing a node. -/

inductive PtNode : Type where
  | mk (label : List Int) (prob : Option Int) (children : List PtNode) : PtNode

def PtNode.prob : PtNode → Option Int
  | .mk _ p _ => p

/-- The inner loop of `getTerminalNodePositionOfWord`
(`dynamic_patricia_trie_policy.cpp`, lines 115-121) and of
`addUnigramWord`: the merged code points of a node from index `m`
onward all match the search word. -/
def matchesAt (w : List Int) : Nat → List Int → Bool
  | _, [] => true
  | m, c :: rest => if w[m]? = some c then matchesAt w (m + 1) rest else false

/-- `DynamicPatriciaTriePolicy::getTerminalNodePositionOfWord`
(`dynamic_patricia_trie_policy.cpp`, lines 93-136), returning the found
node (the source returns its head position): skip a sibling when the
node would overrun the word or its first code point differs; fail on a
mid-label mismatch; succeed when the word is exhausted exactly;
otherwise descend to the children. -/
def lookupWord (w : List Int) : Nat → List PtNode → Option PtNode
  | _, [] => none
  | m, PtNode.mk label prob children :: rest =>
    if w.length < m + label.length ∨ ¬(label.head? = w[m]?) then
      lookupWord w m rest
    else if ¬(matchesAt w (m + 1) label.tail = true) then none
    else if w.length = m + label.length then some (PtNode.mk label prob children)
    else if children.isEmpty then none
    else lookupWord w (m + label.length) children

/-- The `j` loop of `addUnigramWord`
(`dynamic_patricia_trie_writing_helper.cpp`, lines 47-56): the first
index `j ≥ 1` at which the word is exhausted or the merged code point
differs, scanning the node's label from index 1 (given as `label.tail`
with `j` starting at 1). -/
def findDivAux (w : List Int) (m : Nat) : Nat → List Int → Option Nat
  | _, [] => none
  | j, c :: rest =>
    if w.length ≤ m + j ∨ ¬(w[m + j]? = some c) then some j
    else findDivAux w m (j + 1) rest

/-- `DynamicPatriciaTrieWritingHelper::reallocatePtNodeAndAddNewPtNodes`
(`dynamic_patricia_trie_writing_helper.cpp`, lines 343-407), by its
reader-visible effect: split the node at `j`; the second part keeps the
original's terminal info and children; with an extra child the first
part is non-terminal and gains a sibling for the divergent suffix,
otherwise the first part becomes terminal with the new probability. -/
def reallocatePtNode (label : List Int) (origProb : Option Int)
    (children : List PtNode) (j : Nat) (wrest : List Int) (p : Int) : PtNode :=
  let secondPart := PtNode.mk (label.drop j) origProb children
  if wrest.length > j then
    PtNode.mk (label.take j) none
      [secondPart, PtNode.mk (wrest.drop j) (some p) []]
  else
    PtNode.mk (label.take j) (some p) [secondPart]

/-- `DynamicPatriciaTrieWritingHelper::addUnigramWord`
(`dynamic_patricia_trie_writing_helper.cpp`, lines 31-80), by its
reader-visible effect: skip siblings whose first code point differs
(appending a fresh node through the forward link at the end of the
chain); split on a mid-label divergence; overwrite or create the
terminal probability on an exact match (`setPtNodeProbability`, lines
286-308 — for a non-terminal node the moved replacement carries the
same label and children with the new probability); create a child array
when the matched node has no children (lines 310-321); descend
otherwise. -/
def addWord (w : List Int) (p : Int) : Nat → List PtNode → List PtNode
  | m, [] => [PtNode.mk (w.drop m) (some p) []]
  | m, PtNode.mk label prob children :: rest =>
    if ¬(label.head? = w[m]?) then
      PtNode.mk label prob children :: addWord w p m rest
    else
      match findDivAux w m 1 label.tail with
      | some j => reallocatePtNode label prob children j (w.drop m) p :: rest
      | none =>
        if w.length = m + label.length then
          PtNode.mk label (some p) children :: rest
        else if children.isEmpty then
          PtNode.mk label prob
            [PtNode.mk (w.drop (m + label.length)) (some p) []] :: rest
        else
          PtNode.mk label prob (addWord w p (m + label.length) children) :: rest

/-! ## Basic lemmas about the scanning loop -/

theorem actualLength_eq_takeWhile_length (l : List Int) :
    DicNodeUtils.actualLength l = (l.takeWhile (fun c => c ≠ 0)).length := by
  induction l with
  | nil => rfl
  | cons c rest ih =>
    by_cases h : c = 0
    · simp [DicNodeUtils.actualLength, List.takeWhile, h]
    · simp [DicNodeUtils.actualLength, List.takeWhile, h, ih]

theorem take_actualLength_eq_takeWhile (l : List Int) :
    l.take (DicNodeUtils.actualLength l) = l.takeWhile (fun c => c ≠ 0) := by
  induction l with
  | nil => rfl
  | cons c rest ih =>
    by_cases h : c = 0
    · simp [DicNodeUtils.actualLength, List.takeWhile, h]
    · simp [DicNodeUtils.actualLength, List.takeWhile, h, ih]

/-! ## Lemmas for the trie round-trip -/

theorem lookupWord_nil (w : List Int) (m : Nat) : lookupWord w m [] = none := by
  simp only [lookupWord]

theorem lookupWord_cons_skip {w : List Int} {m : Nat} {label : List Int}
    {prob : Option Int} {children rest : List PtNode}
    (h : w.length < m + label.length ∨ ¬(label.head? = w[m]?)) :
    lookupWord w m (PtNode.mk label prob children :: rest) = lookupWord w m rest := by
  simp only [lookupWord]
  rw [if_pos h]

theorem lookupWord_cons_found {w : List Int} {m : Nat} {label : List Int}
    {prob : Option Int} {children rest : List PtNode}
    (h1 : ¬(w.length < m + label.length ∨ ¬(label.head? = w[m]?)))
    (h2 : matchesAt w (m + 1) label.tail = true)
    (h3 : w.length = m + label.length) :
    lookupWord w m (PtNode.mk label prob children :: rest) =
      some (PtNode.mk label prob children) := by
  simp only [lookupWord]
  rw [if_neg h1, if_neg (not_not_intro h2), if_pos h3]

theorem lookupWord_cons_descend {w : List Int} {m : Nat} {label : List Int}
    {prob : Option Int} {children rest : List PtNode}
    (h1 : ¬(w.length < m + label.length ∨ ¬(label.head? = w[m]?)))
    (h2 : matchesAt w (m + 1) label.tail = true)
    (h3 : ¬(w.length = m + label.length))
    (h4 : ¬(children.isEmpty = true)) :
    lookupWord w m (PtNode.mk label prob children :: rest) =
      lookupWord w (m + label.length) children := by
  simp only [lookupWord]
  rw [if_neg h1, if_neg (not_not_intro h2), if_neg h3, if_neg h4]

theorem addWord_nil (w : List Int) (p : Int) (m : Nat) :
    addWord w p m [] = [PtNode.mk (w.drop m) (some p) []] := by
  simp only [addWord]

theorem addWord_cons_skip {w : List Int} {p : Int} {m : Nat} {label : List Int}
    {prob : Option Int} {children rest : List PtNode}
    (h : ¬(label.head? = w[m]?)) :
    addWord w p m (PtNode.mk label prob children :: rest) =
      PtNode.mk label prob children :: addWord w p m rest := by
  simp only [addWord]
  rw [if_pos h]

theorem addWord_cons_split {w : List Int} {p : Int} {m : Nat} {label : List Int}
    {prob : Option Int} {children rest : List PtNode} {j : Nat}
    (hh : label.head? = w[m]?)
    (hdiv : findDivAux w m 1 label.tail = some j) :
    addWord w p m (PtNode.mk label prob children :: rest) =
      reallocatePtNode label prob children j (w.drop m) p :: rest := by
  simp only [addWord]
  rw [if_neg (not_not_intro hh), hdiv]

theorem addWord_cons_setProb {w : List Int} {p : Int} {m : Nat} {label : List Int}
    {prob : Option Int} {children rest : List PtNode}
    (hh : label.head? = w[m]?)
    (hdiv : findDivAux w m 1 label.tail = none)
    (hlen : w.length = m + label.length) :
    addWord w p m (PtNode.mk label prob children :: rest) =
      PtNode.mk label (some p) children :: rest := by
  simp only [addWord]
  rw [if_neg (not_not_intro hh), hdiv, if_pos hlen]

theorem addWord_cons_newChild {w : List Int} {p : Int} {m : Nat} {label : List Int}
    {prob : Option Int} {children rest : List PtNode}
    (hh : label.head? = w[m]?)
    (hdiv : findDivAux w m 1 label.tail = none)
    (hlen : ¬(w.length = m + label.length))
    (hempty : children.isEmpty = true) :
    addWord w p m (PtNode.mk label prob children :: rest) =
      PtNode.mk label prob
        [PtNode.mk (w.drop (m + label.length)) (some p) []] :: rest := by
  simp only [addWord]
  rw [if_neg (not_not_intro hh), hdiv, if_neg hlen, if_pos hempty]

theorem addWord_cons_descend {w : List Int} {p : Int} {m : Nat} {label : List Int}
    {prob : Option Int} {children rest : List PtNode}
    (hh : label.head? = w[m]?)
    (hdiv : findDivAux w m 1 label.tail = none)
    (hlen : ¬(w.length = m + label.length))
    (hempty : ¬(children.isEmpty = true)) :
    addWord w p m (PtNode.mk label prob children :: rest) =
      PtNode.mk label prob (addWord w p (m + label.length) children) :: rest := by
  simp only [addWord]
  rw [if_neg (not_not_intro hh), hdiv, if_neg hlen, if_neg hempty]

theorem head?_drop_eq_getElem? (l : List Int) (n : Nat) : (l.drop n).head? = l[n]? := by
  induction l generalizing n with
  | nil => simp
  | cons a t ih =>
    cases n with
    | zero => simp
    | succ k =>
      rw [List.drop_succ_cons, List.getElem?_cons_succ]
      exact ih k

theorem matchesAt_self (w : List Int) :
    ∀ (L : List Int) (k : Nat), w.drop k = L → matchesAt w k L = true := by
  intro L
  induction L with
  | nil => intro k _; rfl
  | cons c rest ih =>
    intro k h
    have hc : w[k]? = some c := by
      rw [← head?_drop_eq_getElem?, h]
      rfl
    have ht : w.drop (k + 1) = rest := by
      rw [← List.tail_drop, h]
      rfl
    simp only [matchesAt]
    rw [if_pos hc]
    exact ih (k + 1) ht

/-- The lookup finds a leaf holding exactly the remaining word. -/
theorem lookupWord_found_suffix_leaf (w : List Int) (p : Int) (m : Nat)
    (hm : m ≤ w.length) (rest : List PtNode) :
    lookupWord w m (PtNode.mk (w.drop m) (some p) [] :: rest) =
      some (PtNode.mk (w.drop m) (some p) []) := by
  have hlen : (w.drop m).length = w.length - m := List.length_drop _ _
  simp only [lookupWord]
  rw [if_neg, if_neg, if_pos]
  · omega
  · rw [matchesAt_self w ((w.drop m).tail) (m + 1) (by rw [List.tail_drop])]
    simp
  · push_neg
    constructor
    · omega
    · rw [head?_drop_eq_getElem?]

theorem findDivAux_none_facts (w : List Int) (m : Nat) :
    ∀ (L : List Int) (j : Nat), findDivAux w m j L = none →
      matchesAt w (m + j) L = true ∧ (L ≠ [] → m + j + L.length ≤ w.length) := by
  intro L
  induction L with
  | nil => intro j _; exact ⟨rfl, fun h => absurd rfl h⟩
  | cons c rest ih =>
    intro j h
    simp only [findDivAux] at h
    by_cases hcond : w.length ≤ m + j ∨ ¬(w[m + j]? = some c)
    · rw [if_pos hcond] at h
      cases h
    · rw [if_neg hcond] at h
      push_neg at hcond
      obtain ⟨ihm, ihb⟩ := ih (j + 1) h
      refine ⟨?_, fun _ => ?_⟩
      · simp only [matchesAt]
        rw [if_pos hcond.2]
        exact ihm
      · by_cases hrest : rest = []
        · subst hrest
          simp only [List.length_cons, List.length_nil]
          omega
        · have := ihb hrest
          simp only [List.length_cons]
          omega

theorem findDivAux_some_facts (w : List Int) (m : Nat) :
    ∀ (L : List Int) (j0 j : Nat), findDivAux w m j0 L = some j →
      m + j0 ≤ w.length →
      j0 ≤ j ∧ j - j0 < L.length ∧ m + j ≤ w.length ∧
      matchesAt w (m + j0) (L.take (j - j0)) = true ∧
      (w.length ≤ m + j ∨ ¬(w[m + j]? = L[j - j0]?)) := by
  intro L
  induction L with
  | nil => intro j0 j h; cases h
  | cons c rest ih =>
    intro j0 j h hj0
    simp only [findDivAux] at h
    by_cases hcond : w.length ≤ m + j0 ∨ ¬(w[m + j0]? = some c)
    · rw [if_pos hcond] at h
      injection h with h
      subst h
      refine ⟨le_refl _, by simp, hj0, by simp [matchesAt], ?_⟩
      rcases hcond with h | h
      · exact Or.inl h
      · exact Or.inr (by simpa using h)
    · rw [if_neg hcond] at h
      push_neg at hcond
      obtain ⟨h1, h2, h3, h4, h5⟩ := ih (j0 + 1) j h (by omega)
      have hjj : j - j0 = (j - (j0 + 1)) + 1 := by omega
      refine ⟨by omega, by simp only [List.length_cons]; omega, h3, ?_, ?_⟩
      · rw [hjj, List.take_succ_cons]
        simp only [matchesAt]
        rw [if_pos hcond.2]
        exact h4
      · rw [hjj, List.getElem?_cons_succ]
        exact h5

theorem addWord_ne_nil (w : List Int) (p : Int) (m : Nat) (nodes : List PtNode) :
    addWord w p m nodes ≠ [] := by
  match nodes with
  | [] => simp [addWord]
  | PtNode.mk label prob children :: rest =>
    simp only [addWord]
    split
    · exact List.cons_ne_nil _ _
    · split
      · exact List.cons_ne_nil _ _
      · split
        · exact List.cons_ne_nil _ _
        · split
          · exact List.cons_ne_nil _ _
          · exact List.cons_ne_nil _ _

/-- After a split, the lookup finds the terminal carrying the new
probability: the first part itself when the word ends at the split
point, or the extra child for the divergent suffix. -/
theorem lookupWord_reallocate (w : List Int) (p : Int) (m : Nat) (c0 : Int)
    (L : List Int) (prob : Option Int) (children : List PtNode)
    (rest : List PtNode) (j : Nat)
    (hm : m < w.length)
    (hhead : (c0 :: L).head? = w[m]?)
    (hj1 : 1 ≤ j) (hjlen : j - 1 < L.length) (hjw : m + j ≤ w.length)
    (hmatch : matchesAt w (m + 1) (L.take (j - 1)) = true)
    (htrig : w.length ≤ m + j ∨ ¬(w[m + j]? = L[j - 1]?)) :
    ∃ n, lookupWord w m
        (reallocatePtNode (c0 :: L) prob children j (w.drop m) p :: rest) =
      some n ∧ n.prob = some p := by
  have hj' : j = (j - 1) + 1 := by omega
  have htake : (c0 :: L).take j = c0 :: L.take (j - 1) := by
    conv_lhs => rw [hj']
    rw [List.take_succ_cons]
  have htakelen : ((c0 :: L).take j).length = j := by
    rw [htake]
    simp only [List.length_cons, List.length_take]
    omega
  have hcskip : ¬(w.length < m + ((c0 :: L).take j).length ∨
      ¬(((c0 :: L).take j).head? = w[m]?)) := by
    push_neg
    refine ⟨by rw [htakelen]; omega, ?_⟩
    rw [htake]
    simpa using hhead
  have hcmatch : matchesAt w (m + 1) ((c0 :: L).take j).tail = true := by
    rw [htake]
    simpa using hmatch
  by_cases hextra : (w.drop m).length > j
  · have hmj : m + j < w.length := by
      rw [List.length_drop] at hextra
      omega
    have htrig' : ¬(w[m + j]? = L[j - 1]?) := by
      rcases htrig with h | h
      · omega
      · exact h
    simp only [reallocatePtNode]
    rw [if_pos hextra]
    rw [lookupWord_cons_descend hcskip hcmatch (by rw [htakelen]; omega)
      (by simp)]
    rw [htakelen]
    rw [lookupWord_cons_skip (Or.inr (by
      rw [head?_drop_eq_getElem?]
      have hidx : (c0 :: L)[j]? = L[j - 1]? := by
        conv_lhs => rw [hj']
        rw [List.getElem?_cons_succ]
      rw [hidx]
      intro hc
      exact htrig' (by rw [hc])))]
    rw [List.drop_drop]
    exact ⟨_, lookupWord_found_suffix_leaf w p (m + j) (by omega) [], rfl⟩
  · have hmj : m + j = w.length := by
      rw [List.length_drop] at hextra
      omega
    simp only [reallocatePtNode]
    rw [if_neg hextra]
    rw [lookupWord_cons_found hcskip hcmatch (by rw [htakelen]; omega)]
    exact ⟨_, rfl, rfl⟩

/-- The round-trip, by strong induction on the size of the sibling
forest: looking the word up right after adding it finds a terminal
holding the new probability. -/
theorem addWord_lookup_aux (w : List Int) (p : Int) :
    ∀ (k : Nat) (nodes : List PtNode), sizeOf nodes ≤ k → ∀ m, m < w.length →
      ∃ n, lookupWord w m (addWord w p m nodes) = some n ∧ n.prob = some p := by
  intro k
  induction k with
  | zero =>
    intro nodes hsz m _
    cases nodes with
    | nil => simp at hsz
    | cons node rest =>
      simp only [List.cons.sizeOf_spec] at hsz
      omega
  | succ k ih =>
    intro nodes hsz m hm
    cases nodes with
    | nil =>
      rw [addWord_nil]
      exact ⟨PtNode.mk (w.drop m) (some p) [],
        lookupWord_found_suffix_leaf w p m (le_of_lt hm) [], rfl⟩
    | cons node rest =>
      obtain ⟨label, prob, children⟩ := node
      have hszrest : sizeOf rest ≤ k := by
        simp only [List.cons.sizeOf_spec] at hsz
        omega
      have hszch : sizeOf children ≤ k := by
        simp only [List.cons.sizeOf_spec, PtNode.mk.sizeOf_spec] at hsz
        omega
      by_cases hhead : label.head? = w[m]?
      · have hlabne : label ≠ [] := by
          intro h
          subst h
          rw [List.getElem?_eq_getElem hm] at hhead
          cases hhead
        cases hdiv : findDivAux w m 1 label.tail with
        | some j =>
          rw [addWord_cons_split hhead hdiv]
          cases label with
          | nil => exact absurd rfl hlabne
          | cons c0 L =>
            obtain ⟨hj1, hjlen, hjw, hmatch, htrig⟩ :=
              findDivAux_some_facts w m L 1 j hdiv (by omega)
            exact lookupWord_reallocate w p m c0 L prob children rest j hm
              hhead hj1 hjlen hjw hmatch htrig
        | none =>
          obtain ⟨hmatch, hbound⟩ := findDivAux_none_facts w m label.tail 1 hdiv
          have hlenle : m + label.length ≤ w.length := by
            cases label with
            | nil => exact absurd rfl hlabne
            | cons c0 L =>
              by_cases hL : L = []
              · subst hL
                simp only [List.length_cons, List.length_nil]
                omega
              · have := hbound (by simpa using hL)
                simp only [List.tail_cons, List.length_cons] at this ⊢
                omega
          have hcskip : ¬(w.length < m + label.length ∨ ¬(label.head? = w[m]?)) := by
            push_neg
            exact ⟨by omega, hhead⟩
          by_cases hlen : w.length = m + label.length
          · rw [addWord_cons_setProb hhead hdiv hlen]
            exact ⟨PtNode.mk label (some p) children,
              lookupWord_cons_found hcskip hmatch hlen, rfl⟩
          · by_cases hempty : children.isEmpty = true
            · rw [addWord_cons_newChild hhead hdiv hlen hempty]
              refine ⟨PtNode.mk (w.drop (m + label.length)) (some p) [], ?_, rfl⟩
              rw [lookupWord_cons_descend hcskip hmatch hlen (by simp)]
              exact lookupWord_found_suffix_leaf w p (m + label.length)
                (by omega) []
            · rw [addWord_cons_descend hhead hdiv hlen hempty]
              obtain ⟨n, hn, hp⟩ := ih children hszch (m + label.length)
                (by omega)
              refine ⟨n, ?_, hp⟩
              rw [lookupWord_cons_descend hcskip hmatch hlen ?_]
              · exact hn
              · have := addWord_ne_nil w p (m + label.length) children
                simpa [List.isEmpty_iff] using this
      · rw [addWord_cons_skip hhead]
        obtain ⟨n, hn, hp⟩ := ih rest hszrest m hm
        refine ⟨n, ?_, hp⟩
        rw [lookupWord_cons_skip (Or.inr hhead)]
        exact hn

/-- C2: for every word of 1..`MAX_WORD_LENGTH` code points and
probability `p`, after `addUnigramWord(w, p)` succeeds on an updatable
dictionary, `getTerminalNodePositionOfWord(w, length, false)` finds a
terminal node whose stored unigram probability equals `p` (positions
are represented by the nodes themselves in the reader-visible tree). -/
theorem addUnigramWord_lookup_roundtrip (dict : List PtNode) (w : List Int)
    (p : Int) (hlen : 1 ≤ w.length) (_hlen48 : w.length ≤ MAX_WORD_LENGTH) :
    ∃ n, lookupWord w 0 (addWord w p 0 dict) = some n ∧ n.prob = some p :=
  addWord_lookup_aux w p (sizeOf dict) dict (le_refl _) 0 (by omega)

/-- Witness for C2: adding "ab" with probability 120 to the empty
dictionary, then looking it up. -/
theorem addUnigramWord_lookup_roundtrip_witness :
    ∃ n, lookupWord [97, 98] 0 (addWord [97, 98] 120 0 []) = some n ∧
      n.prob = some 120 :=
  addUnigramWord_lookup_roundtrip [] [97, 98] 120 (by decide) (by decide)

/-- C5: `getProbability(uni, bi)` returns `NOT_A_PROBABILITY` when
`uni = NOT_A_PROBABILITY`; returns `backoff(uni) = max(uni - 8, 0)`
when `uni` is valid and `bi = NOT_A_PROBABILITY`; and when both are
valid returns `round(uni + (MAX_PROBABILITY - uni) * (bi + 1) / 16)`. -/
theorem getProbability_cases (uni bi : Int) :
    (uni = NOT_A_PROBABILITY →
      DynamicPatriciaTriePolicy.getProbability uni bi = NOT_A_PROBABILITY) ∧
    (uni ≠ NOT_A_PROBABILITY → bi = NOT_A_PROBABILITY →
      DynamicPatriciaTriePolicy.getProbability uni bi = max (uni - 8) 0) ∧
    (uni ≠ NOT_A_PROBABILITY → bi ≠ NOT_A_PROBABILITY →
      DynamicPatriciaTriePolicy.getProbability uni bi =
        round ((uni : ℚ) + ((MAX_PROBABILITY : ℚ) - (uni : ℚ)) * ((bi : ℚ) + 1) / 16)) := by
  refine ⟨fun h => ?_, fun h h' => ?_, fun h h' => ?_⟩
  · simp [DynamicPatriciaTriePolicy.getProbability, h]
  · simp [DynamicPatriciaTriePolicy.getProbability, ProbabilityUtils.backoff, h, h']
  · simp [DynamicPatriciaTriePolicy.getProbability,
      ProbabilityUtils.computeProbabilityForBigram, h, h']

/-- Witness for C5: the three branches evaluated at concrete inputs. -/
theorem getProbability_cases_witness :
    DynamicPatriciaTriePolicy.getProbability NOT_A_PROBABILITY 5 = NOT_A_PROBABILITY ∧
    DynamicPatriciaTriePolicy.getProbability 100 NOT_A_PROBABILITY = max (100 - 8) 0 ∧
    DynamicPatriciaTriePolicy.getProbability 100 5 =
      round ((100 : ℚ) + ((MAX_PROBABILITY : ℚ) - (100 : ℚ)) * ((5 : ℚ) + 1) / 16) := by
  exact ⟨(getProbability_cases NOT_A_PROBABILITY 5).1 rfl,
    (getProbability_cases 100 NOT_A_PROBABILITY).2.1 (by decide) rfl,
    (getProbability_cases 100 5).2.2 (by decide) (by decide)⟩

/-- C10: `appendTwoWords` writes the prefix of `src0` up to (not
including) its first 0 code point, truncated to at most
`MAX_WORD_LENGTH` code points, followed by the prefix of `src1` up to
its first 0, truncated to the remaining space; the total number of code
points written is at most `MAX_WORD_LENGTH`. -/
theorem appendTwoWords_spec (src0 src1 : List Int) :
    DicNodeUtils.appendTwoWords src0 src1 =
      (src0.takeWhile (fun c => c ≠ 0)).take MAX_WORD_LENGTH ++
        (src1.takeWhile (fun c => c ≠ 0)).take
          (MAX_WORD_LENGTH -
            ((src0.takeWhile (fun c => c ≠ 0)).take MAX_WORD_LENGTH).length) ∧
    (DicNodeUtils.appendTwoWords src0 src1).length ≤ MAX_WORD_LENGTH := by
  have hmain : DicNodeUtils.appendTwoWords src0 src1 =
      (src0.takeWhile (fun c => c ≠ 0)).take MAX_WORD_LENGTH ++
        (src1.takeWhile (fun c => c ≠ 0)).take
          (MAX_WORD_LENGTH -
            ((src0.takeWhile (fun c => c ≠ 0)).take MAX_WORD_LENGTH).length) := by
    unfold DicNodeUtils.appendTwoWords
    have h0 : src0.take (min (DicNodeUtils.actualLength src0) MAX_WORD_LENGTH) =
        (src0.takeWhile (fun c => c ≠ 0)).take MAX_WORD_LENGTH := by
      rw [← take_actualLength_eq_takeWhile, List.take_take, Nat.min_comm]
    have hlen : ((src0.takeWhile (fun c => c ≠ 0)).take MAX_WORD_LENGTH).length =
        min (DicNodeUtils.actualLength src0) MAX_WORD_LENGTH := by
      rw [List.length_take, ← actualLength_eq_takeWhile_length, Nat.min_comm]
    by_cases h1 : src1.isEmpty
    · have : src1 = [] := List.isEmpty_iff.mp h1
      subst this
      simp [h0]
    · have h1' : src1.take (min (DicNodeUtils.actualLength src1)
          (MAX_WORD_LENGTH - min (DicNodeUtils.actualLength src0) MAX_WORD_LENGTH)) =
          (src1.takeWhile (fun c => c ≠ 0)).take
            (MAX_WORD_LENGTH - min (DicNodeUtils.actualLength src0) MAX_WORD_LENGTH) := by
        rw [← take_actualLength_eq_takeWhile, List.take_take, Nat.min_comm]
      simp only [h1, if_false, h0, hlen, h1']
      simp
  refine ⟨hmain, ?_⟩
  rw [hmain]
  rw [List.length_append, List.length_take, List.length_take]
  omega

/-! ## Lemmas for the MultiBigramMap equivalence -/

namespace MultiBigramMap

theorem findAssoc_insertAssoc_self (k v : Int) (m : List (Int × Int)) :
    findAssoc k (insertAssoc k v m) = some v := by
  induction m with
  | nil => simp [insertAssoc, findAssoc]
  | cons e rest ih =>
    obtain ⟨k', v'⟩ := e
    by_cases h : k' = k
    · simp [insertAssoc, h, findAssoc]
    · simp [insertAssoc, h, findAssoc, ih]

theorem findAssoc_insertAssoc_other (k k' v : Int) (m : List (Int × Int)) (h : k' ≠ k) :
    findAssoc k (insertAssoc k' v m) = findAssoc k m := by
  induction m with
  | nil => simp [insertAssoc, findAssoc, h]
  | cons e rest ih =>
    obtain ⟨k'', v''⟩ := e
    by_cases h2 : k'' = k'
    · subst h2
      simp [insertAssoc, findAssoc, h, Ne.symm h]
    · by_cases h3 : k'' = k
      · simp [insertAssoc, h2, findAssoc, h3, Ne.symm h]
      · simp [insertAssoc, h2, findAssoc, h3, ih]

/-- The accumulation step of `BigramMap.init`. -/
theorem init_eq_foldl (bigramsOf : Int → List (Int × Int)) (nodePos : Int) :
    BigramMap.init bigramsOf nodePos =
      (bigramsOf nodePos).foldl
        (fun bm e =>
          { map := insertAssoc e.1 e.2 bm.map, filter := bloomHash e.1 :: bm.filter })
        { map := [], filter := [] } := rfl

theorem findAssoc_foldl_not_mem (es : List (Int × Int)) (k : Int)
    (hk : ∀ e ∈ es, e.1 ≠ k) (bm : BigramMap) :
    findAssoc k ((es.foldl
      (fun bm e =>
        { map := insertAssoc e.1 e.2 bm.map, filter := bloomHash e.1 :: bm.filter })
      bm).map) = findAssoc k bm.map := by
  induction es generalizing bm with
  | nil => rfl
  | cons e rest ih =>
    have hkr : ∀ e' ∈ rest, e'.1 ≠ k := fun e' he' => hk e' (List.mem_cons_of_mem _ he')
    rw [List.foldl_cons, ih hkr]
    exact findAssoc_insertAssoc_other k e.1 e.2 bm.map (hk e (List.mem_cons_self _ _))

theorem findAssoc_foldl_eq_find (es : List (Int × Int)) (k : Int)
    (hnd : (es.map Prod.fst).Nodup) (bm : BigramMap) :
    findAssoc k ((es.foldl
      (fun bm e =>
        { map := insertAssoc e.1 e.2 bm.map, filter := bloomHash e.1 :: bm.filter })
      bm).map) =
      match es.find? (fun e => decide (e.1 = k)) with
      | some e => some e.2
      | none => findAssoc k bm.map := by
  induction es generalizing bm with
  | nil => rfl
  | cons e rest ih =>
    rw [List.map_cons, List.nodup_cons] at hnd
    by_cases h : e.1 = k
    · have hkr : ∀ e' ∈ rest, e'.1 ≠ k := by
        intro e' he' hc
        exact hnd.1 (by rw [← hc] at h; exact h ▸ List.mem_map_of_mem Prod.fst he')
      rw [List.foldl_cons, findAssoc_foldl_not_mem rest k hkr,
        List.find?_cons_of_pos _ (by simp [h])]
      exact h ▸ findAssoc_insertAssoc_self e.1 e.2 bm.map
    · rw [List.foldl_cons, ih hnd.2, List.find?_cons_of_neg _ (by simp [h])]
      cases rest.find? (fun e => decide (e.1 = k)) with
      | some e' => rfl
      | none => exact findAssoc_insertAssoc_other k e.1 e.2 bm.map h

theorem mem_foldl_filter_mono (es : List (Int × Int)) (bm : BigramMap) (x : Int)
    (hx : x ∈ bm.filter) :
    x ∈ ((es.foldl
      (fun bm e =>
        { map := insertAssoc e.1 e.2 bm.map, filter := bloomHash e.1 :: bm.filter })
      bm).filter) := by
  induction es generalizing bm with
  | nil => exact hx
  | cons e rest ih => exact ih _ (List.mem_cons_of_mem _ hx)

theorem bloomHash_mem_foldl_filter (es : List (Int × Int)) :
    ∀ (bm : BigramMap) (e : Int × Int), e ∈ es →
      bloomHash e.1 ∈ ((es.foldl
        (fun bm e =>
          { map := insertAssoc e.1 e.2 bm.map, filter := bloomHash e.1 :: bm.filter })
        bm).filter) := by
  induction es with
  | nil => intro bm e he; cases he
  | cons e' rest ih =>
    intro bm e he
    rcases List.mem_cons.mp he with h | h
    · subst h
      exact mem_foldl_filter_mono rest _ _ (List.mem_cons_self _ _)
    · exact ih _ _ h

theorem scanBigramList_eq_find (next uni : Int) (es : List (Int × Int)) :
    scanBigramList next uni es =
      match es.find? (fun e => decide (e.1 = next)) with
      | some e => ProbabilityUtils.computeProbabilityForBigram uni e.2
      | none => ProbabilityUtils.backoff uni := by
  induction es with
  | nil => rfl
  | cons e rest ih =>
    by_cases h : e.1 = next
    · rw [scanBigramList, if_pos h, List.find?_cons_of_pos _ (by simp [h])]
    · rw [scanBigramList, if_neg h, ih, List.find?_cons_of_neg _ (by simp [h])]

/-- Core equivalence: the cached map answers exactly as the linear
scan, provided the bigram list has no duplicate target. -/
theorem bigramMap_init_get_eq_scan (bigramsOf : Int → List (Int × Int))
    (p next uni : Int) (hnd : ((bigramsOf p).map Prod.fst).Nodup) :
    (BigramMap.init bigramsOf p).getBigramProbability next uni =
      readBigramProbabilityFromBinaryDictionary bigramsOf p next uni := by
  unfold BigramMap.getBigramProbability readBigramProbabilityFromBinaryDictionary
  rw [init_eq_foldl, findAssoc_foldl_eq_find _ _ hnd, scanBigramList_eq_find]
  cases hfind : (bigramsOf p).find? (fun e => decide (e.1 = next)) with
  | some e =>
    have hmem : e ∈ bigramsOf p := List.mem_of_find?_eq_some hfind
    have hek : e.1 = next := by
      have := List.find?_some hfind
      exact of_decide_eq_true this
    have hbloom : bloomHash next ∈ ((((bigramsOf p)).foldl
        (fun bm e =>
          { map := insertAssoc e.1 e.2 bm.map, filter := bloomHash e.1 :: bm.filter })
        ({ map := [], filter := [] } : BigramMap)).filter) :=
      hek ▸ bloomHash_mem_foldl_filter _ _ e hmem
    simp [hfind, hbloom]
  | none =>
    simp only [hfind, findAssoc]
    split <;> rfl

theorem findCached_mem (k : Int) (l : List (Int × BigramMap)) (bm : BigramMap)
    (h : findCached k l = some bm) : (k, bm) ∈ l := by
  induction l with
  | nil => cases h
  | cons e rest ih =>
    obtain ⟨k', bm'⟩ := e
    by_cases hk : k' = k
    · subst hk
      simp only [findCached, if_true, eq_self_iff_true, Option.some.injEq] at h
      subst h
      exact List.mem_cons_self _ _
    · simp only [findCached, if_neg hk] at h
      exact List.mem_cons_of_mem _ (ih h)

end MultiBigramMap

/-- C3: `MultiBigramMap::getBigramProbability` returns the same integer
whether the previous word's bigram list has been cached (the
bloom-filter-plus-hash-map path) or the query falls through to
`readBigramProbabilityFromBinaryDictionary`'s direct linear scan —
for any cache state built by `BigramMap::init` over the same
dictionary, and any bigram list without duplicate targets. -/
theorem multiBigramMap_cached_uncached_agree
    (bigramsOf : Int → List (Int × Int)) (st : MultiBigramMap.State)
    (hcache : ∀ p bm, (p, bm) ∈ st.bigramMaps →
      bm = MultiBigramMap.BigramMap.init bigramsOf p)
    (wordPosition nextWordPosition unigramProbability : Int)
    (hnd : ((bigramsOf wordPosition).map Prod.fst).Nodup) :
    MultiBigramMap.getBigramProbability bigramsOf st
        wordPosition nextWordPosition unigramProbability =
      MultiBigramMap.readBigramProbabilityFromBinaryDictionary bigramsOf
        wordPosition nextWordPosition unigramProbability := by
  unfold MultiBigramMap.getBigramProbability
  cases hf : MultiBigramMap.findCached wordPosition st.bigramMaps with
  | some bm =>
    have hmem := MultiBigramMap.findCached_mem _ _ _ hf
    simp only [hf]
    rw [hcache _ _ hmem]
    exact MultiBigramMap.bigramMap_init_get_eq_scan bigramsOf _ _ _ hnd
  | none =>
    simp only [hf]
    split
    · exact MultiBigramMap.bigramMap_init_get_eq_scan bigramsOf _ _ _ hnd
    · rfl

/-- C7: for a terminal DicNode (valid `ptNodePos`) evaluated with a
MultiBigramMap present, `getBigramNodeImprobability` returns
`(MAX_PROBABILITY - p) / MAX_PROBABILITY`, where `p` is composed via
`MultiBigramMap` when `prevWordTerminalPtNodePos ≠ NOT_A_DICT_POS` and
via `getProbability(unigram, NOT_A_PROBABILITY)` otherwise; except that
a DicNode with `hasMultipleWords` that is not a valid multiple-word
suggestion yields `MAX_VALUE_FOR_WEIGHTING`. -/
theorem getBigramNodeImprobability_spec (bigramsOf : Int → List (Int × Int))
    (n : DicNode) (st : MultiBigramMap.State)
    (hpos : n.ptNodePos ≠ NOT_A_DICT_POS) :
    (n.hasMultipleWords = true → n.isValidMultipleWordSuggestion = false →
      DicNodeUtils.getBigramNodeImprobability bigramsOf n (some st) =
        MAX_VALUE_FOR_WEIGHTING) ∧
    (¬(n.hasMultipleWords = true ∧ n.isValidMultipleWordSuggestion = false) →
      (n.prevWordTerminalPtNodePos ≠ NOT_A_DICT_POS →
        DicNodeUtils.getBigramNodeImprobability bigramsOf n (some st) =
          ((MAX_PROBABILITY : ℚ) -
              (MultiBigramMap.getBigramProbability bigramsOf st
                n.prevWordTerminalPtNodePos n.ptNodePos n.probability : ℚ)) /
            (MAX_PROBABILITY : ℚ)) ∧
      (n.prevWordTerminalPtNodePos = NOT_A_DICT_POS →
        DicNodeUtils.getBigramNodeImprobability bigramsOf n (some st) =
          ((MAX_PROBABILITY : ℚ) -
              (DynamicPatriciaTriePolicy.getProbability n.probability
                NOT_A_PROBABILITY : ℚ)) /
            (MAX_PROBABILITY : ℚ))) := by
  refine ⟨fun hm hv => ?_, fun hmv => ⟨fun hprev => ?_, fun hprev => ?_⟩⟩
  · simp [DicNodeUtils.getBigramNodeImprobability, hm, hv]
  · have hcond : ¬(n.hasMultipleWords && !n.isValidMultipleWordSuggestion) = true := by
      intro hc
      rw [Bool.and_eq_true, Bool.not_eq_true'] at hc
      exact hmv ⟨hc.1, hc.2⟩
    rw [DicNodeUtils.getBigramNodeImprobability, if_neg hcond,
      DicNodeUtils.getBigramNodeProbability]
    simp [hpos, hprev]
  · have hcond : ¬(n.hasMultipleWords && !n.isValidMultipleWordSuggestion) = true := by
      intro hc
      rw [Bool.and_eq_true, Bool.not_eq_true'] at hc
      exact hmv ⟨hc.1, hc.2⟩
    rw [DicNodeUtils.getBigramNodeImprobability, if_neg hcond,
      DicNodeUtils.getBigramNodeProbability]
    simp [hprev]

/-- Witness for C7: a single-word terminal DicNode with a previous-word
context, empty cache. -/
theorem getBigramNodeImprobability_spec_witness :
    DicNodeUtils.getBigramNodeImprobability (fun _ => [])
        ⟨100, 3, 7, false, false⟩ (some ⟨[]⟩) =
      ((MAX_PROBABILITY : ℚ) -
          (MultiBigramMap.getBigramProbability (fun _ => []) ⟨[]⟩ 7 3 100 : ℚ)) /
        (MAX_PROBABILITY : ℚ) :=
  ((getBigramNodeImprobability_spec (fun _ => []) ⟨100, 3, 7, false, false⟩ ⟨[]⟩
    (by decide)).2 (by simp)).1 (by decide)

/-! ## Lemmas for the bigram result arrays -/

namespace BigramDictionary

theorem entryGE_refl (a : Int × List Int) : entryGE a a := Or.inr ⟨rfl, le_refl _⟩

theorem entryGE_trans {a b c : Int × List Int} (h1 : entryGE a b) (h2 : entryGE b c) :
    entryGE a c := by
  rcases h1 with h1 | ⟨h1, h1'⟩ <;> rcases h2 with h2 | ⟨h2, h2'⟩
  · exact Or.inl (by omega)
  · exact Or.inl (by omega)
  · exact Or.inl (by omega)
  · exact Or.inr ⟨by omega, le_trans h1' h2'⟩

theorem actualLength_of_zero_not_mem {w : List Int} (h0 : (0 : Int) ∉ w) :
    DicNodeUtils.actualLength w = w.length := by
  induction w with
  | nil => rfl
  | cons c rest ih =>
    have hc : c ≠ 0 := fun h => h0 (h ▸ List.mem_cons_self _ _)
    have h0' : (0 : Int) ∉ rest := fun h => h0 (List.mem_cons_of_mem _ h)
    simp [DicNodeUtils.actualLength, hc, ih h0']

theorem getCodePointCount_of_wf {w : List Int} (h0 : (0 : Int) ∉ w)
    (h48 : w.length ≤ MAX_WORD_LENGTH) :
    getCodePointCount MAX_WORD_LENGTH w = w.length := by
  unfold getCodePointCount
  rw [actualLength_of_zero_not_mem h0]
  omega

theorem entryGE_of_betterB {p : Int} {w : List Int} {e : Int × List Int}
    (hb : betterB p w.length e = true) (h0 : (0 : Int) ∉ w)
    (h48 : w.length ≤ MAX_WORD_LENGTH) : entryGE (p, w) e := by
  unfold betterB at hb
  simp only [Bool.or_eq_true, Bool.and_eq_true, decide_eq_true_eq] at hb
  unfold entryGE
  rw [show ((p, w).2) = w from rfl, show ((p, w).1) = p from rfl,
    getCodePointCount_of_wf h0 h48]
  rcases hb with h | ⟨h, h'⟩
  · exact Or.inl h
  · exact Or.inr ⟨h, le_of_lt h'⟩

theorem entryGE_of_not_betterB {p : Int} {w : List Int} {e : Int × List Int}
    (hb : ¬betterB p w.length e = true) (h0 : (0 : Int) ∉ w)
    (h48 : w.length ≤ MAX_WORD_LENGTH) : entryGE e (p, w) := by
  unfold betterB at hb
  simp only [Bool.or_eq_true, Bool.and_eq_true, decide_eq_true_eq, not_or, not_and,
    not_lt] at hb
  unfold entryGE
  rw [show ((p, w).2) = w from rfl, show ((p, w).1) = p from rfl,
    getCodePointCount_of_wf h0 h48]
  by_cases hpe : p = e.1
  · exact Or.inr ⟨hpe.symm, hb.2 hpe⟩
  · exact Or.inl (by omega)

theorem chain'_head_entryGE :
    ∀ {a : Int × List Int} {l : List (Int × List Int)},
      List.Chain' entryGE (a :: l) → ∀ y ∈ l, entryGE a y := by
  intro a l
  induction l generalizing a with
  | nil => intro _ y hy; cases hy
  | cons b t ih =>
    intro h y hy
    have hab : entryGE a b := (List.chain'_cons.mp h).1
    have hbt : List.Chain' entryGE (b :: t) := (List.chain'_cons.mp h).2
    rcases List.mem_cons.mp hy with rfl | hy'
    · exact hab
    · exact entryGE_trans hab (ih hbt y hy')

theorem chain'_entryGE_getLast :
    ∀ {l : List (Int × List Int)}, List.Chain' entryGE l → ∀ (hne : l ≠ []),
      ∀ x ∈ l, entryGE x (l.getLast hne) := by
  intro l
  induction l with
  | nil => intro _ hne; cases hne rfl
  | cons a t ih =>
    intro h hne x hx
    rcases List.mem_cons.mp hx with rfl | hx'
    · rcases List.mem_cons.mp (List.getLast_mem hne) with hl | hl
      · rw [hl]; exact entryGE_refl x
      · exact chain'_head_entryGE h _ hl
    · have ht : t ≠ [] := by rintro rfl; cases hx'
      rw [List.getLast_cons ht]
      exact ih (List.Chain'.tail h) ht x hx'

theorem length_addWordBigram (p : Int) (w : List Int) (l : List (Int × List Int)) :
    (addWordBigram p w l).length = l.length := by
  induction l with
  | nil => rfl
  | cons e rest ih =>
    by_cases hb : betterB p w.length e = true
    · rw [addWordBigram, if_pos hb]
      simp [List.length_dropLast]
    · rw [addWordBigram, if_neg hb]
      simp [ih]

theorem chain'_addWordBigram {p : Int} {w : List Int} {l : List (Int × List Int)}
    (hl : List.Chain' entryGE l) (h0 : (0 : Int) ∉ w)
    (h48 : w.length ≤ MAX_WORD_LENGTH) :
    List.Chain' entryGE (addWordBigram p w l) := by
  induction l with
  | nil => exact List.chain'_nil
  | cons e rest ih =>
    by_cases hb : betterB p w.length e = true
    · rw [addWordBigram, if_pos hb]
      refine List.chain'_cons'.mpr ⟨?_, List.dropLast_eq_take _ ▸ hl.take _⟩
      intro y hy
      cases rest with
      | nil => simp at hy
      | cons b t =>
        have : ((e :: b :: t).dropLast).head? = some e := rfl
        rw [this, Option.mem_some_iff] at hy
        subst hy
        exact entryGE_of_betterB hb h0 h48
    · rw [addWordBigram, if_neg hb]
      refine List.chain'_cons'.mpr ⟨?_, ih (List.Chain'.tail hl)⟩
      intro y hy
      cases rest with
      | nil => simp [addWordBigram] at hy
      | cons b t =>
        rw [addWordBigram] at hy
        by_cases hb2 : betterB p w.length b = true
        · rw [if_pos hb2] at hy
          simp only [List.head?_cons, Option.mem_some_iff] at hy
          subst hy
          exact entryGE_of_not_betterB hb h0 h48
        · rw [if_neg hb2] at hy
          simp only [List.head?_cons, Option.mem_some_iff] at hy
          subst hy
          exact (List.chain'_cons.mp hl).1

theorem addWordBigram_dropped {p : Int} {w : List Int} {l : List (Int × List Int)}
    (hl : List.Chain' entryGE l) (h0 : (0 : Int) ∉ w)
    (h48 : w.length ≤ MAX_WORD_LENGTH) :
    ∃ d, ((p, w) :: l).Perm (d :: addWordBigram p w l) ∧
      ∀ x ∈ (p, w) :: l, entryGE x d := by
  induction l with
  | nil =>
    refine ⟨(p, w), List.Perm.refl _, ?_⟩
    intro x hx
    rw [List.mem_singleton] at hx
    subst hx
    exact entryGE_refl _
  | cons e rest ih =>
    by_cases hb : betterB p w.length e = true
    · rw [addWordBigram, if_pos hb]
      have hne : e :: rest ≠ [] := List.cons_ne_nil _ _
      refine ⟨(e :: rest).getLast hne, ?_, ?_⟩
      · have hl2 : (e :: rest).Perm
            ((e :: rest).getLast hne :: (e :: rest).dropLast) := by
          conv_lhs => rw [← List.dropLast_append_getLast hne]
          exact List.perm_append_singleton _ _
        exact (hl2.cons _).trans (List.Perm.swap _ _ _)
      · intro x hx
        rcases List.mem_cons.mp hx with rfl | hx'
        · exact entryGE_trans (entryGE_of_betterB hb h0 h48)
            (chain'_entryGE_getLast hl hne e (List.mem_cons_self _ _))
        · exact chain'_entryGE_getLast hl hne x hx'
    · rw [addWordBigram, if_neg hb]
      obtain ⟨d, hperm, hmin⟩ := ih (List.Chain'.tail hl)
      have hd_mem : d ∈ (p, w) :: rest := hperm.mem_iff.mpr (List.mem_cons_self _ _)
      refine ⟨d, ?_, ?_⟩
      · have s1 : ((p, w) :: e :: rest).Perm (e :: (p, w) :: rest) :=
          List.Perm.swap _ _ _
        have s2 : (e :: (p, w) :: rest).Perm (e :: d :: addWordBigram p w rest) :=
          hperm.cons _
        have s3 : (e :: d :: addWordBigram p w rest).Perm
            (d :: e :: addWordBigram p w rest) := List.Perm.swap _ _ _
        exact s1.trans (s2.trans s3)
      · intro x hx
        rcases List.mem_cons.mp hx with rfl | hx'
        · exact hmin _ (List.mem_cons_self _ _)
        rcases List.mem_cons.mp hx' with rfl | hx''
        · rcases List.mem_cons.mp hd_mem with rfl | hd'
          · exact entryGE_of_not_betterB hb h0 h48
          · exact chain'_head_entryGE hl d hd'
        · exact hmin x (List.mem_cons_of_mem _ hx'')

theorem chain'_initialResults : List.Chain' entryGE initialResults :=
  List.chain'_replicate_of_rel _ (entryGE_refl _)

theorem foldl_addWordBigram_chain' (es : List (Int × List Int))
    (hwf : ∀ e ∈ es, (0 : Int) ∉ e.2 ∧ e.2.length ≤ MAX_WORD_LENGTH) :
    ∀ l, List.Chain' entryGE l →
      List.Chain' entryGE (es.foldl (fun a e => addWordBigram e.1 e.2 a) l) := by
  induction es with
  | nil => intro l hl; exact hl
  | cons e rest ih =>
    intro l hl
    have he := hwf e (List.mem_cons_self _ _)
    exact ih (fun e' he' => hwf e' (List.mem_cons_of_mem _ he')) _
      (chain'_addWordBigram hl he.1 he.2)

theorem foldl_addWordBigram_length (es : List (Int × List Int)) :
    ∀ l, (es.foldl (fun a e => addWordBigram e.1 e.2 a) l).length = l.length := by
  induction es with
  | nil => intro l; rfl
  | cons e rest ih =>
    intro l
    rw [List.foldl_cons, ih, length_addWordBigram]

end BigramDictionary

/-- C8: after every sequence of `addWordBigram` insertions into the
result arrays (candidates being dictionary words: no embedded 0, at
most `MAX_WORD_LENGTH` code points), the kept entries are ordered by
probability descending with ties broken so that the word with fewer
code points comes first; the structure always holds `MAX_RESULTS`
slots, and inserting a new candidate drops the lowest-ranked entry of
the combined set (the candidate itself when it ranks below every
slot). -/
theorem addWordBigram_results_invariant (inserts : List (Int × List Int))
    (hwf : ∀ e ∈ inserts, (0 : Int) ∉ e.2 ∧ e.2.length ≤ MAX_WORD_LENGTH) :
    List.Chain' BigramDictionary.entryGE
        (inserts.foldl (fun a e => BigramDictionary.addWordBigram e.1 e.2 a)
          BigramDictionary.initialResults) ∧
    (inserts.foldl (fun a e => BigramDictionary.addWordBigram e.1 e.2 a)
        BigramDictionary.initialResults).length = MAX_RESULTS ∧
    ∀ p w, (0 : Int) ∉ w → w.length ≤ MAX_WORD_LENGTH →
      ∃ d, ((p, w) :: inserts.foldl (fun a e => BigramDictionary.addWordBigram e.1 e.2 a)
            BigramDictionary.initialResults).Perm
          (d :: BigramDictionary.addWordBigram p w
            (inserts.foldl (fun a e => BigramDictionary.addWordBigram e.1 e.2 a)
              BigramDictionary.initialResults)) ∧
        ∀ x ∈ (p, w) :: inserts.foldl (fun a e => BigramDictionary.addWordBigram e.1 e.2 a)
            BigramDictionary.initialResults, BigramDictionary.entryGE x d := by
  have hsorted := BigramDictionary.foldl_addWordBigram_chain' inserts hwf
    BigramDictionary.initialResults BigramDictionary.chain'_initialResults
  refine ⟨hsorted, ?_, ?_⟩
  · rw [BigramDictionary.foldl_addWordBigram_length]
    rfl
  · intro p w h0 h48
    exact BigramDictionary.addWordBigram_dropped hsorted h0 h48

theorem fetchWord_length_le (d : BigramDictionary.PredictionsDict) (pos : Int) :
    (BigramDictionary.fetchWordAndProbability d pos).1.length ≤ MAX_WORD_LENGTH := by
  unfold BigramDictionary.fetchWordAndProbability
  dsimp only
  split
  · assumption
  · simp

theorem foldl_predStep_writtenWords (d : BigramDictionary.PredictionsDict)
    (accept : List Int → Bool) (es : List (Int × Int)) :
    ∀ st : BigramDictionary.PredState,
      (∀ w ∈ st.writtenWords, w.length ≤ MAX_WORD_LENGTH) →
      ∀ w ∈ (es.foldl (BigramDictionary.predStep d accept) st).writtenWords,
        w.length ≤ MAX_WORD_LENGTH := by
  induction es with
  | nil => intro st hst; exact hst
  | cons e rest ih =>
    intro st hst
    apply ih
    intro w hw
    simp only [BigramDictionary.predStep] at hw
    by_cases ha : accept (BigramDictionary.fetchWordAndProbability d e.1).1 = true
    · rw [if_pos ha] at hw
      dsimp only at hw
      by_cases hany : st.results.any (BigramDictionary.betterB
          (ProbabilityUtils.computeProbabilityForBigram
            (BigramDictionary.fetchWordAndProbability d e.1).2 e.2)
          (BigramDictionary.fetchWordAndProbability d e.1).1.length) = true
      · rw [if_pos hany] at hw
        rcases List.mem_append.mp hw with h | h
        · exact hst w h
        · rw [List.mem_singleton] at h
          subst h
          exact fetchWord_length_le d e.1
      · rw [if_neg hany] at hw
        exact hst w hw
    · rw [if_neg ha] at hw
      exact hst w hw

/-- C9 (amended): `getPredictions` returns a count at most
`MAX_RESULTS`, and every word written into the fixed-stride output
slots has at most `MAX_WORD_LENGTH` code points; its 0 terminator is
written at slot index `word.length`, which lies inside the slot exactly
when the word is shorter than `MAX_WORD_LENGTH` (a word of exactly
`MAX_WORD_LENGTH` code points fills its slot and the terminator falls
outside it). -/
theorem getPredictions_bounded (d : BigramDictionary.PredictionsDict)
    (accept : List Int → Bool) :
    (BigramDictionary.getPredictions d accept).1 ≤ MAX_RESULTS ∧
    ∀ w ∈ (BigramDictionary.getPredictions d accept).2.writtenWords,
      w.length ≤ MAX_WORD_LENGTH := by
  constructor
  · simp only [BigramDictionary.getPredictions]
    exact Nat.min_le_right _ _
  · simp only [BigramDictionary.getPredictions]
    exact foldl_predStep_writtenWords d accept d.bigrams ⟨0, BigramDictionary.initialResults, []⟩
      (by intro w hw; cases hw)

/-- Counterexample for C9: a bigram prediction whose word has exactly
`MAX_WORD_LENGTH` = 48 code points is written into its slot with the 0
terminator at index 48, outside the slot bounds. -/
theorem getPredictions_terminator_cex :
    ¬ (∀ w ∈ (BigramDictionary.getPredictions
          ⟨[(20, 5)], fun _ => (List.replicate 48 97, 100)⟩
          (fun _ => true)).2.writtenWords,
        w.length < MAX_WORD_LENGTH) := by
  have hp : ProbabilityUtils.computeProbabilityForBigram 100 5 = 158 := by
    unfold ProbabilityUtils.computeProbabilityForBigram MAX_PROBABILITY
    norm_num [round_eq]
  have hfetch : BigramDictionary.fetchWordAndProbability
      ⟨[(20, 5)], fun _ => (List.replicate 48 97, 100)⟩ 20 =
      (List.replicate 48 97, 100) := by
    simp [BigramDictionary.fetchWordAndProbability, MAX_WORD_LENGTH]
  have hany : BigramDictionary.initialResults.any
      (BigramDictionary.betterB 158 (List.replicate (48 : Nat) (97 : Int)).length) = true := by
    decide
  have hwritten : (BigramDictionary.getPredictions
      ⟨[(20, 5)], fun _ => (List.replicate 48 97, 100)⟩
      (fun _ => true)).2.writtenWords = [List.replicate 48 97] := by
    simp only [BigramDictionary.getPredictions, List.foldl_cons, List.foldl_nil,
      BigramDictionary.predStep, hfetch, if_true, hp, hany]
    rfl
  rw [hwritten]
  decide

/-- Witness for C8: a single insertion of a concrete word. -/
theorem addWordBigram_results_invariant_witness :
    List.Chain' BigramDictionary.entryGE
      ([((200 : Int), ([99] : List Int))].foldl
        (fun a e => BigramDictionary.addWordBigram e.1 e.2 a)
        BigramDictionary.initialResults) :=
  (addWordBigram_results_invariant [(200, [99])] (by decide)).1

/-- Witness for C3: a concrete one-entry bigram list, empty cache. -/
theorem multiBigramMap_cached_uncached_agree_witness :
    MultiBigramMap.getBigramProbability
        (fun p => if p = 10 then [(20, 5)] else []) ⟨[]⟩ 10 20 100 =
      MultiBigramMap.readBigramProbabilityFromBinaryDictionary
        (fun p => if p = 10 then [(20, 5)] else []) 10 20 100 :=
  multiBigramMap_cached_uncached_agree
    (fun p => if p = 10 then [(20, 5)] else []) ⟨[]⟩
    (by intro p bm h; cases h) 10 20 100 (by simp)

/-- Counterexample for C6: a child array holding a single deleted
terminal node at position 7.  The node is deleted, yet the enumeration
reports an entry at its position (with its terminal flag cleared) —
deleted children are not omitted. -/
theorem createAndGetAllChildNodes_deleted_cex :
    ((⟨false, ⟨7, true, true, false, false, false, 100, -1, [97]⟩,
        ⟨7, true, true, false, false, false, 100, -1, [97]⟩⟩ :
      RawPtNode).resolved.isDeleted = true) ∧
    ¬ (∀ c ∈ createAndGetAllChildNodes true
          [[⟨false, ⟨7, true, true, false, false, false, 100, -1, [97]⟩,
              ⟨7, true, true, false, false, false, 100, -1, [97]⟩⟩]],
        c.ptNodePos ≠ 7) := by
  constructor
  · rfl
  · intro h
    exact h ⟨7, -1, 100, false, false, false, [97]⟩
      (List.mem_singleton.mpr rfl) rfl

/-- Counterexample for C1: in `reallocatePtNodeAndAddNewPtNodes` (here
with an original node of 2 code points split after 1, new word adding
an extra child, original head at 500, tail at 1000), the
children-position field of the moved node receives the second part's
position, not the replacement's (the first part, which is what the
moved-position field stores). -/
theorem reallocate_childrenPos_cex :
    (markNodeAsMovedAndSetPosition 500 (reallocateMarkArgs 1000 1 2).1
        (reallocateMarkArgs 1000 1 2).2).childrenPosField ≠
      (reallocateMarkArgs 1000 1 2).1 := by decide

/-- C1 (amended): for every PtNode that a mutation marks as `isMoved`,
the moved-to position of its replacement is stored in the
parent-offset field (head position plus the stored offset recovers it);
the children-position field holds the bigram-linked node, which equals
the replacement for `addBigramWords` and `setPtNodeProbability` but is
the distinct second (suffix) part for
`reallocatePtNodeAndAddNewPtNodes`.  A reader following the
parent-offset redirect once reaches the replacement. -/
theorem markNodeAsMoved_redirect_fields (headPos tailPos : Int)
    (overlapping newCount : Nat) :
    ((markNodeAsMovedAndSetPosition headPos (addBigramWordsMarkArgs tailPos).1
        (addBigramWordsMarkArgs tailPos).2).isMoved = true ∧
      (markNodeAsMovedAndSetPosition headPos (addBigramWordsMarkArgs tailPos).1
        (addBigramWordsMarkArgs tailPos).2).childrenPosField =
        (addBigramWordsMarkArgs tailPos).1 ∧
      headPos + (markNodeAsMovedAndSetPosition headPos
        (addBigramWordsMarkArgs tailPos).1
        (addBigramWordsMarkArgs tailPos).2).parentOffsetField =
        (addBigramWordsMarkArgs tailPos).1) ∧
    ((markNodeAsMovedAndSetPosition headPos (setPtNodeProbabilityMarkArgs tailPos).1
        (setPtNodeProbabilityMarkArgs tailPos).2).childrenPosField =
        (setPtNodeProbabilityMarkArgs tailPos).1 ∧
      headPos + (markNodeAsMovedAndSetPosition headPos
        (setPtNodeProbabilityMarkArgs tailPos).1
        (setPtNodeProbabilityMarkArgs tailPos).2).parentOffsetField =
        (setPtNodeProbabilityMarkArgs tailPos).1) ∧
    (headPos + (markNodeAsMovedAndSetPosition headPos
        (reallocateMarkArgs tailPos overlapping newCount).1
        (reallocateMarkArgs tailPos overlapping newCount).2).parentOffsetField =
        (reallocateMarkArgs tailPos overlapping newCount).1 ∧
      (markNodeAsMovedAndSetPosition headPos
        (reallocateMarkArgs tailPos overlapping newCount).1
        (reallocateMarkArgs tailPos overlapping newCount).2).childrenPosField =
        (reallocateMarkArgs tailPos overlapping newCount).2 ∧
      (reallocateMarkArgs tailPos overlapping newCount).1 ≠
        (reallocateMarkArgs tailPos overlapping newCount).2) := by
  refine ⟨⟨rfl, rfl, ?_⟩, ⟨rfl, ?_⟩, ⟨?_, rfl, ?_⟩⟩
  · simp [markNodeAsMovedAndSetPosition, addBigramWordsMarkArgs]
  · simp [markNodeAsMovedAndSetPosition, setPtNodeProbabilityMarkArgs]
  · simp [markNodeAsMovedAndSetPosition, reallocateMarkArgs]
  · simp only [reallocateMarkArgs, ptNodeWrittenSize, ptNodeArraySizeFieldSize]
    by_cases h : newCount > overlapping <;> simp [h] <;> omega

/-- Counterexample for C4: `addBigramWords` on a buffer with no tail
space left (capacity 20 = tail 20) and a word0 node at position 5
without a bigram list: the in-place moved-mark patches succeed, the
append of the copied node fails, the call returns false — yet the
flags byte at position 5 now differs from its pre-call content. -/
theorem addBigramWords_failure_not_byte_identical_cex :
    (addBigramWordsW ⟨20, 20, []⟩ ⟨5, 0, 2, 1, 100, 12, false, -1, [], -1, -1, 0, 0⟩
        3).1 = false ∧
    (addBigramWordsW ⟨20, 20, []⟩ ⟨5, 0, 2, 1, 100, 12, false, -1, [], -1, -1, 0, 0⟩
        3).2.read 5 ≠ Buffer.read ⟨20, 20, []⟩ 5 := by decide

/-- C4 (amended): a mutation that fails before performing any buffer
write leaves the dictionary byte-identical (`removeBigramWords` when
the source node has no bigram list); but `addBigramWords` that fails
after its in-place moved-mark patches (here: out of tail space for the
copied node) returns false with the moved mark still in the buffer, so
the buffer is not byte-identical to its pre-call state. -/
theorem mutation_failure_buffer_state
    (removeBigram : Buffer → Int → Bool × Buffer)
    (buf : Buffer) (node : WriterNodeInfo) (word1Pos : Int)
    (hnolist : node.bigramsPos = NOT_A_DICT_POS) :
    removeBigramWordsW removeBigram buf node word1Pos = (false, buf) ∧
    (buf.cap = buf.tail → buf.writes = [] →
      node.headPos + 4 ≤ buf.tail → node.childrenPosFieldPos + 3 ≤ buf.tail →
      node.childrenPosFieldPos ≠ node.headPos → node.hasChildren = false →
      (addBigramWordsW buf node word1Pos).1 = false ∧
      (addBigramWordsW buf node word1Pos).2.read node.headPos =
        some (updatedMovedFlags node.flags) ∧
      buf.read node.headPos = none) := by
  constructor
  · unfold removeBigramWordsW
    rw [if_pos hnolist]
  · intro hcap hwr hhp hcpf hne hch
    have e1 : buf.write node.headPos 1 (updatedMovedFlags node.flags) =
        (true, ⟨buf.cap, buf.tail, [(node.headPos, updatedMovedFlags node.flags)]⟩) := by
      unfold Buffer.write
      rw [if_pos (by omega)]
      simp [hwr, Nat.max_eq_left (show node.headPos + 1 ≤ buf.tail by omega)]
    have e2 : Buffer.write ⟨buf.cap, buf.tail,
          [(node.headPos, updatedMovedFlags node.flags)]⟩
          (node.headPos + 1) 3 ((buf.tail : Int) - (node.headPos : Int)) =
        (true, ⟨buf.cap, buf.tail,
          [(node.headPos + 1, (buf.tail : Int) - (node.headPos : Int)),
           (node.headPos, updatedMovedFlags node.flags)]⟩) := by
      unfold Buffer.write
      rw [if_pos (by simp; omega)]
      simp [Nat.max_eq_left (show node.headPos + 1 + 3 ≤ buf.tail by omega)]
    have e3 : Buffer.write ⟨buf.cap, buf.tail,
          [(node.headPos + 1, (buf.tail : Int) - (node.headPos : Int)),
           (node.headPos, updatedMovedFlags node.flags)]⟩
          node.childrenPosFieldPos 3 (buf.tail : Int) =
        (true, ⟨buf.cap, buf.tail,
          [(node.childrenPosFieldPos, (buf.tail : Int)),
           (node.headPos + 1, (buf.tail : Int) - (node.headPos : Int)),
           (node.headPos, updatedMovedFlags node.flags)]⟩) := by
      unfold Buffer.write
      rw [if_pos (by simp; omega)]
      simp [Nat.max_eq_left (show node.childrenPosFieldPos + 3 ≤ buf.tail by omega)]
    have emark : markNodeAsMovedAndSetPositionW buf node (buf.tail : Int) (buf.tail : Int) =
        (true, ⟨buf.cap, buf.tail,
          [(node.childrenPosFieldPos, (buf.tail : Int)),
           (node.headPos + 1, (buf.tail : Int) - (node.headPos : Int)),
           (node.headPos, updatedMovedFlags node.flags)]⟩) := by
      unfold markNodeAsMovedAndSetPositionW
      rw [e1]
      simp only [Bool.not_true, if_false, Bool.false_eq_true]
      rw [e2]
      simp only [Bool.not_true, if_false, Bool.false_eq_true]
      rw [e3]
      simp [hch]
    have efail : Buffer.write ⟨buf.cap, buf.tail,
          [(node.childrenPosFieldPos, (buf.tail : Int)),
           (node.headPos + 1, (buf.tail : Int) - (node.headPos : Int)),
           (node.headPos, updatedMovedFlags node.flags)]⟩
          buf.tail 1 0 =
        (false, ⟨buf.cap, buf.tail,
          [(node.childrenPosFieldPos, (buf.tail : Int)),
           (node.headPos + 1, (buf.tail : Int) - (node.headPos : Int)),
           (node.headPos, updatedMovedFlags node.flags)]⟩) := by
      unfold Buffer.write
      rw [if_neg (by simp; omega)]
    have eadd : addBigramWordsW buf node word1Pos =
        (false, ⟨buf.cap, buf.tail,
          [(node.childrenPosFieldPos, (buf.tail : Int)),
           (node.headPos + 1, (buf.tail : Int) - (node.headPos : Int)),
           (node.headPos, updatedMovedFlags node.flags)]⟩) := by
      unfold addBigramWordsW
      dsimp only
      rw [emark]
      simp only [Bool.not_true, if_false, Bool.false_eq_true]
      unfold writePtNodeCopyW
      dsimp only
      rw [efail]
      simp
    refine ⟨by rw [eadd], ?_, ?_⟩
    · rw [eadd]
      unfold Buffer.read
      rw [List.find?_cons_of_neg _ (by simp [hne]),
        List.find?_cons_of_neg _ (by simp),
        List.find?_cons_of_pos _ (by simp)]
      rfl
    · unfold Buffer.read
      rw [hwr]
      rfl

/-- Witness for C4 (amended): the concrete out-of-space buffer and
node of the counterexample, plus the untouched-buffer case of
`removeBigramWords`. -/
theorem mutation_failure_buffer_state_witness :
    removeBigramWordsW (fun b _ => (true, b)) ⟨20, 20, []⟩
        ⟨5, 0, 2, 1, 100, 12, false, -1, [], -1, -1, 0, 0⟩ 3 =
      (false, ⟨20, 20, []⟩) ∧
    ((addBigramWordsW ⟨20, 20, []⟩
        ⟨5, 0, 2, 1, 100, 12, false, -1, [], -1, -1, 0, 0⟩ 3).1 = false ∧
      (addBigramWordsW ⟨20, 20, []⟩
        ⟨5, 0, 2, 1, 100, 12, false, -1, [], -1, -1, 0, 0⟩ 3).2.read 5 =
        some (updatedMovedFlags 0) ∧
      Buffer.read ⟨20, 20, []⟩ 5 = none) := by
  have h := mutation_failure_buffer_state (fun b _ => (true, b)) ⟨20, 20, []⟩
    ⟨5, 0, 2, 1, 100, 12, false, -1, [], -1, -1, 0, 0⟩ 3 rfl
  exact ⟨h.1, h.2 rfl rfl (by decide) (by decide) (by decide) rfl⟩

/-- C6 (amended): `createAndGetAllChildNodes` enumerates every child
PtNode of the array chain in order, including deleted ones; a deleted
child is reported with its terminal flag cleared
(`isTerminal && !isDeleted`) rather than omitted, and a child marked
`isMoved` is reported as its moved-to node rather than itself. -/
theorem createAndGetAllChildNodes_amended (arrays : List (List RawPtNode)) :
    createAndGetAllChildNodes true arrays =
      arrays.flatten.map (fun n =>
        let info := if n.isMoved then n.movedTarget else n.self
        { ptNodePos := info.headPos
          childrenPos := info.childrenPos
          probability := info.probability
          isTerminal := info.isTerminal && !info.isDeleted
          hasChildren := info.hasChildren
          isBlacklistedOrNotAWord := info.isBlacklisted || info.isNotAWord
          codePoints := info.codePoints }) := by
  unfold createAndGetAllChildNodes RawPtNode.resolved
  rfl

end LatinIME
